import Mathlib

/-!
Shallow embedding of the Huffman codec in `src/huffman.hpp` (namespace `hf`).

Conventions of the embedding:
* A fixed-width C++ value of type `T` is modelled as a natural number `v`
  together with the byte width `w = sizeof(T)`; a genuine `T` value satisfies
  `v < 256 ^ w`.
* `std::vector<uint8_t>` is `List Nat` (entries < 256), `std::vector<bool>`
  is `List Bool`.
* A thrown `std::runtime_error` is the outcome `Err.truncated` (a reported
  failure).  An out-of-bounds `std::vector` access or another undefined
  behaviour (dereferencing the end iterator, reading an uninitialised child
  pointer) is the outcome `Err.oob`: it is NOT a reported failure.
* `size_t` arithmetic that can wrap (the `data.size() - start` guards) is
  modelled exactly with `sub64`, subtraction modulo `2 ^ 64`.
-/

namespace hf

/-- Outcome of a fallible C++ operation: `truncated` models a thrown
`std::runtime_error`; `oob` models undefined behaviour (out-of-bounds
vector access, end-iterator dereference, uninitialised pointer read). -/
inductive Err where
  | truncated : Err
  | oob : Err
deriving DecidableEq, Repr

deriving instance DecidableEq for Except

/-- Wrapping `size_t` subtraction `a - b` (both operands below `2 ^ 64`). -/
def sub64 (a b : Nat) : Nat := (2 ^ 64 + a - b) % 2 ^ 64

/-- Little-endian byte image of a value, as produced by `hf::to_bytes`
(byte `i` is `(v >> 8*i) & 0xFF`; both host-endianness branches of the C++
emit exactly this list). -/
def to_bytes : Nat → Nat → List Nat
  | 0, _ => []
  | w + 1, v => v % 256 :: to_bytes w (v / 256)

/-- Value denoted by a little-endian byte list, as assembled by the write-back
loop of `hf::from_bytes` (byte `i` lands at weight `256 ^ i`). -/
def bytesToValue : List Nat → Nat
  | [] => 0
  | b :: rest => b + 256 * bytesToValue rest

/-- Model of `hf::from_bytes`: the C++ guard is
`data.size() - start < sizeof(T)` over `size_t`, which wraps when
`start > data.size()`; if the guard passes, the loop reads
`data[start + i]` for `i < sizeof(T)`, an out-of-bounds access whenever
`start + sizeof(T) > data.size()`. -/
def from_bytes (w : Nat) (data : List Nat) (start : Nat) : Except Err Nat :=
  if sub64 data.length start < w then .error .truncated
  else if start + w ≤ data.length then
    .ok (bytesToValue ((data.drop start).take w))
  else .error .oob

/-- Bit `j` (MSB first) of a byte: `(b >> (7 - j)) & 1`, as tested by
`hf::to_bits` and by the unpacking loop of `hf::read_data`. -/
def getBitMSB (b j : Nat) : Bool := b / 2 ^ (7 - j) % 2 == 1

/-- The eight bits of one byte, most significant first, as pushed by the inner
loop of `hf::to_bits`. -/
def byteBits (b : Nat) : List Bool := (List.range 8).map (getBitMSB b)

/-- Reassembling one byte from eight bits pushed MSB first (the
`byte |= 0x80 >> j` loop of `hf::from_bits` and `hf::write_data`). -/
def bitsToByte (bs : List Bool) : Nat :=
  bs.foldl (fun acc b => 2 * acc + (if b then 1 else 0)) 0

/-- Model of `hf::to_bits`: bytes in little-endian order, each byte emitted
most-significant-bit first. -/
def to_bits (w v : Nat) : List Bool := (to_bytes w v).flatMap byteBits

/-- Byte-reassembly loop of `hf::from_bits`: byte `i` of the output value is
rebuilt from the eight bits at positions `start + 8*i .. start + 8*i + 7`,
most significant first. -/
def readBitsBytes (data : List Bool) : Nat → Nat → List Nat
  | _, 0 => []
  | start, w + 1 =>
    bitsToByte ((data.drop start).take 8) :: readBitsBytes data (start + 8) w

/-- Model of `hf::from_bits`: the guard `data.size() - start < sizeof(T)*8`
wraps over `size_t`; if it passes, the loop reads `8 * sizeof(T)` bits
sequentially from `start` (out of bounds when they do not all exist) and
rebuilds the bytes little-endian, MSB-first within each byte. -/
def from_bits (w : Nat) (data : List Bool) (start : Nat) : Except Err Nat :=
  if sub64 data.length start < 8 * w then .error .truncated
  else if start + 8 * w ≤ data.length then
    .ok (bytesToValue (readBitsBytes data start w))
  else .error .oob

/-- Zero padding of a final partial byte: the `byte` accumulator of
`hf::write_data` starts at 0 and only ORs bits in, so missing low bits of the
last byte stay 0. -/
def padTo8 (c : List Bool) : List Bool := c ++ List.replicate (8 - c.length) false

/-- Packed payload bytes of `hf::write_data`: bits are packed MSB first, eight
per byte, the final partial byte zero padded. -/
def packBits (bs : List Bool) : List Nat :=
  (List.range ((bs.length + 7) / 8)).map
    (fun i => bitsToByte (padTo8 ((bs.drop (8 * i)).take 8)))

/-- Model of `hf::write_data`: the byte stream written to the file is the
64-bit little-endian bit count followed by the MSB-first packed bits. -/
def write_data (bs : List Bool) : List Nat :=
  to_bytes 8 bs.length ++ packBits bs

/-- Model of `hf::read_data`: reads the 8 count bytes (premature end of file
throws), then reads one payload byte per 8 bits as needed (premature end of
file throws), extracting bits MSB first and ignoring padding. -/
def read_data (bytes : List Nat) : Except Err (List Bool) :=
  if bytes.length < 8 then .error .truncated
  else
    let size := bytesToValue (bytes.take 8)
    if (size + 7) / 8 ≤ bytes.length - 8 then
      .ok ((List.range size).map (fun i => getBitMSB (bytes.getD (8 + i / 8) 0) (i % 8)))
    else .error .truncated

/-- Huffman tree of `hf::encode`/`hf::decode`: `leaf` is a `Node` with
`end = true` holding one symbol, `node` a `Node` with `end = false` owning two
children.  The C++ struct is only ever built through these two constructors,
so an internal node always has exactly two children. -/
inductive HTree where
  | leaf (v : Nat) : HTree
  | node (l r : HTree) : HTree
deriving DecidableEq, Repr

/-- The `values` vector of a node: a leaf holds its one symbol, an internal
node the concatenation of its children's values (constructor `Node(l, r)`). -/
def leafValues : HTree → List Nat
  | .leaf v => [v]
  | .node l r => leafValues l ++ leafValues r

/-- Working node of the encode merge loop: a tree plus its `freq` field. -/
structure WNode where
  tree : HTree
  freq : Nat
deriving DecidableEq, Repr

instance : Inhabited WNode := ⟨⟨HTree.leaf 0, 0⟩⟩

/-- One `freq_table[data[i]] += 1` update of the `std::map` (keys kept in
ascending order; a missing key is inserted with count 1, since
`std::map::operator[]` value-initializes and the loop then adds 1). -/
def mapIncr : List (Nat × Nat) → Nat → List (Nat × Nat)
  | [], s => [(s, 1)]
  | (k, v) :: rest, s =>
    if s < k then (s, 1) :: (k, v) :: rest
    else if s = k then (k, v + 1) :: rest
    else (k, v) :: mapIncr rest s

/-- The frequency table of `hf::encode`, one update per input symbol. -/
def buildFreq (data : List Nat) : List (Nat × Nat) := data.foldl mapIncr []

/-- Stable insertion used to model `nodes.sort`: an element moves left past
strictly smaller frequencies only, so equal-frequency nodes keep their
relative order. -/
def insertDesc (x : WNode) : List WNode → List WNode
  | [] => [x]
  | y :: ys => if x.freq > y.freq then x :: y :: ys else y :: insertDesc x ys

/-- Model of `nodes.sort` with comparator `l->freq > r->freq`:
`std::list::sort` is a stable sort, and a stable sort by frequency descending
is unique (theorem `stable_sort_unique` below), so this insertion sort is the
function the C++ computes. -/
def stableSortDesc (l : List WNode) : List WNode :=
  l.foldl (fun acc x => insertDesc x acc) []

/-- The `encoding_lut[value].push_back(bit)` loop over one node's values. -/
def lutPush (lut : Nat → List Bool) (vals : List Nat) (b : Bool) : Nat → List Bool :=
  vals.foldl (fun acc v => fun s => if s = v then acc v ++ [b] else acc s) lut

/-- Re-insertion of the merged parent: scan from the front (highest
frequency) and insert before the first node whose frequency is less than or
equal to the parent's (`(*it)->freq <= parent->freq`), or at the end. -/
def insertParent (parent : WNode) : List WNode → List WNode
  | [] => [parent]
  | n :: rest =>
    if n.freq ≤ parent.freq then parent :: n :: rest
    else n :: insertParent parent rest

/-- One iteration of the merge loop: `l` is the last node of the descending
list (lowest frequency), `r` the one before it; `l`'s symbols get a 0 bit
appended, `r`'s a 1 bit; the parent `Node(l, r)` is re-inserted. -/
def mergeStep (ns : List WNode) (lut : Nat → List Bool) :
    List WNode × (Nat → List Bool) :=
  let l := ns.getLastD default
  let r := ns.dropLast.getLastD default
  let rest := ns.dropLast.dropLast
  let lut1 := lutPush lut (leafValues l.tree) false
  let lut2 := lutPush lut1 (leafValues r.tree) true
  (insertParent ⟨HTree.node l.tree r.tree, l.freq + r.freq⟩ rest, lut2)

/-- The merge loop of `hf::encode`; `fuel` bounds the iteration count.  The
C++ loop runs until at most one node remains, and every iteration shrinks the
list by one, so the `fuel = ns.length` supplied below is never exhausted. -/
def mergeLoopF : Nat → List WNode → (Nat → List Bool) → List WNode × (Nat → List Bool)
  | 0, ns, lut => (ns, lut)
  | fuel + 1, ns, lut =>
    if ns.length ≤ 1 then (ns, lut)
    else
      let p := mergeStep ns lut
      mergeLoopF fuel p.1 p.2

/-- Tree construction and code table of `hf::encode`, parameterized by the
sort implementation used for the initial node list. -/
def buildHuffmanWith (sortImpl : List WNode → List WNode) (data : List Nat) :
    List WNode × (Nat → List Bool) :=
  let leaves := (buildFreq data).map (fun p => WNode.mk (HTree.leaf p.1) p.2)
  let sorted := sortImpl leaves
  mergeLoopF sorted.length sorted (fun _ => [])

/-- Tree construction and code table of `hf::encode` with the actual
(stable) `std::list::sort`. -/
def buildHuffman (data : List Nat) : List WNode × (Nat → List Bool) :=
  buildHuffmanWith stableSortDesc data

/-- `Node::encode_tree`: pre-order; `1` then the symbol bits at a leaf, `0`
then both children at an internal node. -/
def encodeTree (w : Nat) : HTree → List Bool
  | .leaf v => true :: to_bits w v
  | .node l r => false :: (encodeTree w l ++ encodeTree w r)

/-- Model of `hf::encode`, parameterized by the sort implementation: tree
bits, then for each input symbol its lookup-table sequence emitted
back-to-front (the C++ pushes `sequence[j]` for `j = size-1 .. 0`).  An empty
input leaves the node list empty and the C++ then dereferences
`*nodes.begin()` of an empty `std::list`: undefined behaviour, `Err.oob`. -/
def encodeWith (sortImpl : List WNode → List WNode) (w : Nat) (data : List Nat) :
    Except Err (List Bool) :=
  match buildHuffmanWith sortImpl data with
  | ([], _) => .error .oob
  | (t :: _, lut) =>
    .ok (encodeTree w t.tree ++ data.flatMap (fun s => (lut s).reverse))

/-- Model of `hf::encode`. -/
def encode (w : Nat) (data : List Nat) : Except Err (List Bool) :=
  encodeWith stableSortDesc w data

/-- The recursive `Node(data, start)` constructor of `hf::decode`, with fuel
(the recursion depth is bounded by the number of bit positions, so the fuel
supplied by `decode` is never exhausted).  Reading the tag bit
`data[start++]` with `start ≥ data.size()` is an out-of-bounds
`std::vector<bool>` access. -/
def parseTree (w : Nat) (data : List Bool) : Nat → Nat → Except Err (HTree × Nat)
  | 0, _ => .error .oob
  | fuel + 1, start =>
    if h : start < data.length then
      if data.get ⟨start, h⟩ then
        match from_bits w data (start + 1) with
        | .error e => .error e
        | .ok v => .ok (HTree.leaf v, start + 1 + 8 * w)
      else
        match parseTree w data fuel (start + 1) with
        | .error e => .error e
        | .ok (l, s1) =>
          match parseTree w data fuel s1 with
          | .error e => .error e
          | .ok (r, s2) => .ok (HTree.node l r, s2)
    else .error .oob

/-- The decode traversal loop: follow `sub_nodes.second` on a 1 bit,
`sub_nodes.first` on a 0 bit; at a leaf emit its symbol and restart from the
root; stop when the bits run out.  Stepping from a leaf dereferences its
uninitialised child pointers: undefined behaviour, `Err.oob`. -/
def walk (root : HTree) : HTree → List Bool → List Nat → Except Err (List Nat)
  | _, [], acc => .ok acc.reverse
  | .leaf _, _ :: _, _ => .error .oob
  | .node l r, b :: rest, acc =>
    match (if b then r else l) with
    | .leaf v => walk root root rest (v :: acc)
    | .node l2 r2 => walk root (HTree.node l2 r2) rest acc

/-- Model of `hf::decode`: reconstruct the tree from the bit stream, then
walk the remaining bits against it. -/
def decode (w : Nat) (data : List Bool) : Except Err (List Nat) :=
  match parseTree w data (data.length + 1) 0 with
  | .error e => .error e
  | .ok (t, start) => walk t t (data.drop start) []

/-- Root-to-leaf path of a symbol in a tree: `false` into the first child,
`true` into the second (the decoder's convention, matching the bits the
merge loop appends). -/
def pathTo : HTree → Nat → List Bool
  | .leaf _, _ => []
  | .node l r, s =>
    if s ∈ leafValues l then false :: pathTo l s else true :: pathTo r s

/-- Modelled from the spec wording of C5: a re-insertion whose tie-break puts
the later-created (inserted) node AFTER earlier nodes of equal frequency,
i.e. it scans past every node of frequency greater than or equal to its own
and stops before the first strictly smaller one. -/
def insertTieAfter (parent : WNode) : List WNode → List WNode
  | [] => [parent]
  | n :: rest =>
    if n.freq < parent.freq then parent :: n :: rest
    else n :: insertTieAfter parent rest

/-- Specification of a stable sort by frequency descending (what the C++
standard guarantees for `std::list::sort` with comparator
`l->freq > r->freq`): the output is sorted by frequency descending and, for
every frequency, preserves the input's relative order of the nodes having
that frequency. -/
def IsStableSortDesc (f : List WNode → List WNode) : Prop :=
  ∀ l : List WNode,
    List.Pairwise (fun a b => b.freq ≤ a.freq) (f l) ∧
    ∀ k : Nat, (f l).filter (fun n => n.freq == k) = l.filter (fun n => n.freq == k)

/-- Disjointness of the symbol sets of two working nodes. -/
def Disj (a b : WNode) : Prop :=
  ∀ s, s ∈ leafValues a.tree → s ∉ leafValues b.tree

/-- Correctness of the lookup table relative to one working node: the node's
symbols are pairwise distinct and each symbol's accumulated code is the
reverse of its root-to-leaf path inside the node's subtree (codes grow
leaf-to-root during the bottom-up merge and are emitted reversed). -/
def NodeOk (lut : Nat → List Bool) (n : WNode) : Prop :=
  (leafValues n.tree).Nodup ∧
  ∀ s ∈ leafValues n.tree, lut s = (pathTo n.tree s).reverse

/-- Merge-loop invariant: every working node satisfies `NodeOk` and the
nodes' symbol sets are pairwise disjoint. -/
def EncInv (ns : List WNode) (lut : Nat → List Bool) : Prop :=
  (∀ n ∈ ns, NodeOk lut n) ∧ List.Pairwise Disj ns

end hf

namespace hf

theorem to_bytes_length (w v : Nat) : (to_bytes w v).length = w := by
  induction w generalizing v with
  | zero => rfl
  | succ w ih => simp [to_bytes, ih]

theorem to_bytes_lt (w v : Nat) : ∀ b ∈ to_bytes w v, b < 256 := by
  induction w generalizing v with
  | zero => intro b hb; simp [to_bytes] at hb
  | succ w ih =>
    intro b hb
    simp only [to_bytes, List.mem_cons] at hb
    rcases hb with h | h
    · exact h ▸ Nat.mod_lt _ (by norm_num)
    · exact ih _ b h

theorem bytesToValue_to_bytes (w v : Nat) (hv : v < 256 ^ w) :
    bytesToValue (to_bytes w v) = v := by
  induction w generalizing v with
  | zero =>
    interval_cases v
    rfl
  | succ w ih =>
    have hdiv : v / 256 < 256 ^ w := by
      rw [Nat.div_lt_iff_lt_mul (by norm_num)]
      calc v < 256 ^ (w + 1) := hv
        _ = 256 ^ w * 256 := by ring
    simp only [to_bytes, bytesToValue, ih (v / 256) hdiv]
    omega

set_option maxRecDepth 4096 in
theorem byteBits_bitsToByte : ∀ b < 256, byteBits (bitsToByte (byteBits b)) = byteBits b ∧ bitsToByte (byteBits b) = b := by
  decide

/-- Round-tripping a single byte through MSB-first bits. -/
theorem bitsToByte_byteBits (b : Nat) (hb : b < 256) :
    bitsToByte (byteBits b) = b :=
  (byteBits_bitsToByte b hb).2

theorem byteBits_length (b : Nat) : (byteBits b).length = 8 := by
  simp [byteBits]

theorem to_bits_length (w v : Nat) : (to_bits w v).length = 8 * w := by
  unfold to_bits
  induction w generalizing v with
  | zero => rfl
  | succ w ih =>
    simp only [to_bytes, List.flatMap_cons, List.length_append, byteBits_length, ih]
    ring

theorem readBitsBytes_shift (pre data : List Bool) (start w : Nat) :
    readBitsBytes (pre ++ data) (pre.length + start) w = readBitsBytes data start w := by
  induction w generalizing start with
  | zero => rfl
  | succ w ih =>
    simp only [readBitsBytes]
    have hdrop : (pre ++ data).drop (pre.length + start) = data.drop start := by
      rw [← List.drop_drop, List.drop_left]
    rw [hdrop]
    have : pre.length + start + 8 = pre.length + (start + 8) := by omega
    rw [this, ih]

theorem readBitsBytes_flatMap (bs : List Nat) (hbs : ∀ b ∈ bs, b < 256) :
    readBitsBytes (bs.flatMap byteBits) 0 bs.length = bs := by
  induction bs with
  | nil => rfl
  | cons b rest ih =>
    simp only [List.flatMap_cons, List.length_cons, readBitsBytes, List.drop_zero]
    congr 1
    · have htake : (byteBits b ++ rest.flatMap byteBits).take 8 = byteBits b := by
        rw [← byteBits_length b, List.take_left]
      rw [htake, bitsToByte_byteBits b (hbs b (List.mem_cons_self b rest))]
    · have h8 : (0 + 8 : Nat) = (byteBits b).length + 0 := by simp [byteBits_length]
      rw [h8, readBitsBytes_shift]
      exact ih (fun x hx => hbs x (List.mem_cons_of_mem b hx))

/-- C8: decoding the byte serialization of a value yields the value back, and
likewise for the bit serialization; the byte serialization has exactly
`sizeof(T)` bytes, little-endian.  `w` is `sizeof(T)`; the hypotheses say that
`v` is a value of the `w`-byte type and that a `8*w`-bit vector is
representable (`size_t` cannot overflow), both automatic for real C++ types. -/
theorem primitive_roundtrip (w v : Nat) (hw : 8 * w < 2 ^ 64) (hv : v < 256 ^ w) :
    (to_bytes w v).length = w ∧
    from_bytes w (to_bytes w v) 0 = .ok v ∧
    from_bits w (to_bits w v) 0 = .ok v := by
  refine ⟨to_bytes_length w v, ?_, ?_⟩
  · unfold from_bytes
    rw [to_bytes_length]
    have hsub : sub64 w 0 = w := by
      unfold sub64
      omega
    rw [hsub, if_neg (lt_irrefl w), if_pos (by omega), List.drop_zero]
    rw [List.take_of_length_le (le_of_eq (to_bytes_length w v))]
    rw [bytesToValue_to_bytes w v hv]
  · unfold from_bits
    rw [to_bits_length]
    have hsub : sub64 (8 * w) 0 = 8 * w := by
      unfold sub64
      omega
    rw [hsub, if_neg (lt_irrefl (8 * w)), if_pos (by omega)]
    unfold to_bits
    have h1 : readBitsBytes ((to_bytes w v).flatMap byteBits) 0 w = to_bytes w v := by
      have h2 := readBitsBytes_flatMap (to_bytes w v) (to_bytes_lt w v)
      rwa [to_bytes_length] at h2
    rw [h1, bytesToValue_to_bytes w v hv]

/-- Witness for C8 at `w = 1`, `v = 202`. -/
theorem primitive_roundtrip_witness :
    (to_bytes 1 202).length = 1 ∧
    from_bytes 1 (to_bytes 1 202) 0 = .ok 202 ∧
    from_bits 1 (to_bits 1 202) 0 = .ok 202 :=
  primitive_roundtrip 1 202 (by norm_num) (by norm_num)

theorem byteBits_bitsToByte_octet :
    ∀ a b c d e f g h : Bool,
      byteBits (bitsToByte [a, b, c, d, e, f, g, h]) = [a, b, c, d, e, f, g, h] := by
  decide

theorem byteBits_bitsToByte_len8 (c : List Bool) (hc : c.length = 8) :
    byteBits (bitsToByte c) = c := by
  rcases c with _ | ⟨a1, c⟩
  · simp at hc
  rcases c with _ | ⟨a2, c⟩
  · simp at hc
  rcases c with _ | ⟨a3, c⟩
  · simp at hc
  rcases c with _ | ⟨a4, c⟩
  · simp at hc
  rcases c with _ | ⟨a5, c⟩
  · simp at hc
  rcases c with _ | ⟨a6, c⟩
  · simp at hc
  rcases c with _ | ⟨a7, c⟩
  · simp at hc
  rcases c with _ | ⟨a8, c⟩
  · simp at hc
  rcases c with _ | ⟨a9, c⟩
  · exact byteBits_bitsToByte_octet a1 a2 a3 a4 a5 a6 a7 a8
  · simp at hc

theorem packBits_length (bs : List Bool) :
    (packBits bs).length = (bs.length + 7) / 8 := by
  simp [packBits]

theorem getBitMSB_eq_byteBits_getD (b j : Nat) (hj : j < 8) :
    getBitMSB b j = (byteBits b).getD j false := by
  rw [byteBits, List.getD_eq_getElem _ _ (by simpa using hj), List.getElem_map,
    List.getElem_range]

set_option maxHeartbeats 1600000 in
/-- C7: reading back a written frame recovers exactly the framed bit
sequence.  The hypothesis says the bit count fits `uint64`, which is forced in
C++ since `data.size()` is a `size_t`. -/
theorem frame_roundtrip (bs : List Bool) (hlen : bs.length < 2 ^ 64) :
    read_data (write_data bs) = .ok bs := by
  have hwlen : (write_data bs).length = 8 + (bs.length + 7) / 8 := by
    simp [write_data, to_bytes_length, packBits_length]
  have htake : (write_data bs).take 8 = to_bytes 8 bs.length := by
    unfold write_data
    have h := List.take_left (to_bytes 8 bs.length) (packBits bs)
    rwa [to_bytes_length] at h
  have hsize : bytesToValue ((write_data bs).take 8) = bs.length := by
    rw [htake]
    exact bytesToValue_to_bytes 8 bs.length (lt_of_lt_of_eq hlen (by norm_num))
  simp only [read_data, hsize]
  rw [if_neg (by omega), if_pos (by rw [hwlen]; omega)]
  congr 1
  apply List.ext_getElem
  · simp
  intro i h1 h2
  rw [List.getElem_map, List.getElem_range]
  have hdm : 8 * (i / 8) + i % 8 = i := Nat.div_add_mod i 8
  have hm8 : i % 8 < 8 := Nat.mod_lt _ (by norm_num)
  have hi2 : i < bs.length := h2
  have hklt : i / 8 < (bs.length + 7) / 8 := by omega
  have hclen : ((bs.drop (8 * (i / 8))).take 8).length
      = min 8 (bs.length - 8 * (i / 8)) := by simp
  have hpad8 : (padTo8 ((bs.drop (8 * (i / 8))).take 8)).length = 8 := by
    unfold padTo8
    rw [List.length_append, hclen, List.length_replicate]
    omega
  have hbyteD : (write_data bs).getD (8 + i / 8) 0 = (packBits bs).getD (i / 8) 0 := by
    unfold write_data
    rw [List.getD_append_right _ _ _ _ (by rw [to_bytes_length]; omega)]
    rw [to_bytes_length]
    congr 1
    omega
  have hpbD : (packBits bs).getD (i / 8) 0
      = bitsToByte (padTo8 ((bs.drop (8 * (i / 8))).take 8)) := by
    unfold packBits
    rw [List.getD_eq_getElem _ _ (by simpa using hklt), List.getElem_map, List.getElem_range]
  rw [hbyteD, hpbD, getBitMSB_eq_byteBits_getD _ _ hm8,
    byteBits_bitsToByte_len8 _ hpad8]
  have hmlt : i % 8 < ((bs.drop (8 * (i / 8))).take 8).length := by
    rw [hclen]
    omega
  rw [padTo8, List.getD_append _ _ _ _ hmlt, List.getD_eq_getElem _ _ hmlt,
    List.getElem_take, List.getElem_drop]
  congr 1

/-- Witness for C7 at a 3-bit sequence (a non-multiple of 8, exercising the
padded final byte). -/
theorem frame_roundtrip_witness :
    read_data (write_data [true, false, true]) = .ok [true, false, true] :=
  frame_roundtrip [true, false, true] (by norm_num)

/-- C9: the truncation guards of `from_bytes` and `from_bits` use wrapping
`size_t` subtraction, so a start offset strictly beyond the end of the data
slips past the guard and the subsequent reads are out of bounds (undefined
behaviour), not the documented thrown error. -/
theorem from_bytes_start_past_end_oob :
    from_bytes 1 [] 1 = .error .oob ∧ from_bits 1 [] 8 = .error .oob := by
  constructor <;> decide

end hf

namespace hf

theorem mem_insertParent (p x : WNode) (ns : List WNode) :
    x ∈ insertParent p ns ↔ x = p ∨ x ∈ ns := by
  induction ns with
  | nil => simp [insertParent]
  | cons n rest ih =>
    by_cases h : n.freq ≤ p.freq
    · simp only [insertParent, if_pos h, List.mem_cons]
    · simp only [insertParent, if_neg h, List.mem_cons, ih]
      tauto

theorem insertParent_perm (p : WNode) (ns : List WNode) :
    List.Perm (insertParent p ns) (p :: ns) := by
  induction ns with
  | nil => simp [insertParent]
  | cons n rest ih =>
    by_cases h : n.freq ≤ p.freq
    · simp [insertParent, h]
    · simp only [insertParent, if_neg h]
      exact (List.Perm.cons n ih).trans (List.Perm.swap p n rest)

theorem insertParent_length (p : WNode) (ns : List WNode) :
    (insertParent p ns).length = ns.length + 1 :=
  (insertParent_perm p ns).length_eq.trans (by simp)

/-- C1 (evaluation at the failing input): for the single-distinct-symbol
input `[0, 0]` the encoder emits only the serialized one-leaf tree and a
zero-bit payload, and the decoder, whose traversal loop never reaches a leaf
without consuming a bit, returns the empty sequence instead of `[0, 0]`. -/
theorem roundtrip_single_symbol_fails :
    (encode 1 [0, 0]).bind (decode 1) = .ok ([] : List Nat) := by
  rfl

/-- C2 (evaluation at the failing input): on the bit sequence `[0]` — an
internal-node tag with both children missing — the recursive tree
deserializer reads `data[1]` on a 1-bit vector: an out-of-bounds access,
not a reported `MalformedTree` error. -/
theorem decode_truncated_tree_oob : decode 1 [false] = .error .oob := by
  rfl

/-- C3 (evaluation at the failing input): encoding the empty sequence leaves
the merge loop's node list empty and `hf::encode` dereferences
`*nodes.begin()` of an empty list — undefined behaviour, not a defined empty
output. -/
theorem encode_empty_oob : encode 1 ([] : List Nat) = .error .oob := by
  rfl

/-- C4 (evaluation at the failing input): for `[0, 0, 1, 2]` the codes are
0 ↦ `0`, 1 ↦ `11`, 2 ↦ `10`, so the intact 35-bit encoding round-trips
(first conjunct), while dropping its final bit cuts symbol 2's two-bit code
`10` in half: the decoder consumes the leftover `1`, steps into the internal
node shared by codes `10` and `11`, and there the cursor exhausts the bits —
a dangling partial code.  The loop simply ends, silently discarding it, and
returns `[0, 0, 1]` with no error and no opt-in (second conjunct). -/
theorem decode_truncated_payload_silent :
    (encode 1 [0, 0, 1, 2]).bind (decode 1) = .ok [0, 0, 1, 2] ∧
    (encode 1 [0, 0, 1, 2]).map (fun bs => decode 1 bs.dropLast) = .ok (.ok [0, 0, 1]) := by
  constructor <;> rfl

/-- C5 (counterexample): on a working list holding one node of frequency 2,
re-inserting a freshly merged parent of equal frequency 2 places the parent
BEFORE the equal-frequency earlier node (`(*it)->freq <= parent->freq` stops
at the first equal), while the claimed tie-break — later-created nodes sort
after earlier ones of equal frequency, `insertTieAfter` — would place it
after. -/
theorem insertParent_tie_counterexample :
    insertParent ⟨HTree.leaf 9, 2⟩ [⟨HTree.leaf 4, 2⟩]
      = [⟨HTree.leaf 9, 2⟩, ⟨HTree.leaf 4, 2⟩] ∧
    insertTieAfter ⟨HTree.leaf 9, 2⟩ [⟨HTree.leaf 4, 2⟩]
      = [⟨HTree.leaf 4, 2⟩, ⟨HTree.leaf 9, 2⟩] := by
  constructor <;> rfl

/-- C5 (amended): after a merge the new internal node is re-inserted keeping
the collection ordered by frequency descending, but ties are broken the
OTHER way round: the parent is inserted before the first node of frequency
less than or equal to its own, so a later-created node sorts before
earlier-created nodes of equal frequency. -/
theorem insertParent_sorted_ties_before (p : WNode) (ns : List WNode)
    (hs : List.Pairwise (fun a b : WNode => b.freq ≤ a.freq) ns) :
    insertParent p ns
      = ns.takeWhile (fun n => p.freq < n.freq) ++
          p :: ns.dropWhile (fun n => p.freq < n.freq) ∧
    List.Pairwise (fun a b : WNode => b.freq ≤ a.freq) (insertParent p ns) := by
  constructor
  · clear hs
    induction ns with
    | nil => rfl
    | cons n rest ih =>
      by_cases h : n.freq ≤ p.freq
      · rw [insertParent, if_pos h, List.takeWhile_cons, List.dropWhile_cons,
          if_neg (by simp only [decide_eq_true_eq]; omega),
          if_neg (by simp only [decide_eq_true_eq]; omega)]
        rfl
      · rw [insertParent, if_neg h, List.takeWhile_cons, List.dropWhile_cons,
          if_pos (by simp only [decide_eq_true_eq]; omega),
          if_pos (by simp only [decide_eq_true_eq]; omega), ih]
        rfl
  · induction ns with
    | nil => simp [insertParent]
    | cons n rest ih =>
      rcases List.pairwise_cons.mp hs with ⟨hn, hrest⟩
      by_cases h : n.freq ≤ p.freq
      · rw [insertParent, if_pos h]
        refine List.pairwise_cons.mpr ⟨?_, hs⟩
        intro x hx
        rcases List.mem_cons.mp hx with rfl | hx2
        · exact h
        · exact le_trans (hn x hx2) h
      · rw [insertParent, if_neg h]
        refine List.pairwise_cons.mpr ⟨?_, ih hrest⟩
        intro x hx
        rcases (mem_insertParent p x rest).mp hx with rfl | hx2
        · omega
        · exact hn x hx2

/-- Witness for C5's amended theorem on a concrete sorted list with an
equal-frequency tie. -/
theorem insertParent_sorted_ties_before_witness :
    insertParent ⟨HTree.leaf 9, 2⟩ [⟨HTree.leaf 4, 3⟩, ⟨HTree.leaf 5, 2⟩]
      = [⟨HTree.leaf 4, 3⟩, ⟨HTree.leaf 9, 2⟩, ⟨HTree.leaf 5, 2⟩] ∧
    List.Pairwise (fun a b : WNode => b.freq ≤ a.freq)
      (insertParent ⟨HTree.leaf 9, 2⟩ [⟨HTree.leaf 4, 3⟩, ⟨HTree.leaf 5, 2⟩]) := by
  have h := insertParent_sorted_ties_before ⟨HTree.leaf 9, 2⟩
    [⟨HTree.leaf 4, 3⟩, ⟨HTree.leaf 5, 2⟩] (by decide)
  exact ⟨h.1.trans (by decide), h.2⟩


theorem mem_insertDesc (x z : WNode) (l : List WNode) :
    z ∈ insertDesc x l ↔ z = x ∨ z ∈ l := by
  induction l with
  | nil => simp [insertDesc]
  | cons y ys ih =>
    by_cases h : x.freq > y.freq
    · simp only [insertDesc, if_pos h, List.mem_cons]
    · simp only [insertDesc, if_neg h, List.mem_cons, ih]
      tauto

theorem insertDesc_sorted (x : WNode) (l : List WNode)
    (hl : List.Pairwise (fun a b : WNode => b.freq ≤ a.freq) l) :
    List.Pairwise (fun a b : WNode => b.freq ≤ a.freq) (insertDesc x l) := by
  induction l with
  | nil => simp [insertDesc]
  | cons y ys ih =>
    rcases List.pairwise_cons.mp hl with ⟨hy, hys⟩
    by_cases h : x.freq > y.freq
    · rw [insertDesc, if_pos h]
      refine List.pairwise_cons.mpr ⟨?_, hl⟩
      intro z hz
      rcases List.mem_cons.mp hz with rfl | hz2
      · omega
      · have := hy z hz2
        omega
    · rw [insertDesc, if_neg h]
      refine List.pairwise_cons.mpr ⟨?_, ih hys⟩
      intro z hz
      rcases (mem_insertDesc x z ys).mp hz with rfl | hz2
      · omega
      · exact hy z hz2

theorem filter_eq_nil_of_lt (k : Nat) (l : List WNode) (hb : ∀ z ∈ l, z.freq < k) :
    l.filter (fun n => n.freq == k) = [] := by
  rw [List.filter_eq_nil_iff]
  intro a ha
  simp only [beq_iff_eq]
  have := hb a ha
  omega

theorem insertDesc_filter (x : WNode) (l : List WNode) (k : Nat)
    (hl : List.Pairwise (fun a b : WNode => b.freq ≤ a.freq) l) :
    (insertDesc x l).filter (fun n => n.freq == k)
      = l.filter (fun n => n.freq == k) ++ (if x.freq = k then [x] else []) := by
  induction l with
  | nil =>
    by_cases hk : x.freq = k <;>
      simp [insertDesc, List.filter_cons, hk]
  | cons y ys ih =>
    rcases List.pairwise_cons.mp hl with ⟨hy, hys⟩
    by_cases h : x.freq > y.freq
    · rw [insertDesc, if_pos h]
      by_cases hk : x.freq = k
      · have hytail : (y :: ys).filter (fun n => n.freq == k) = [] := by
          apply filter_eq_nil_of_lt
          intro z hz
          rcases List.mem_cons.mp hz with rfl | hz2
          · omega
          · have := hy z hz2
            omega
        rw [List.filter_cons_of_pos (by simp [hk]), hytail, if_pos hk]
        rfl
      · rw [List.filter_cons_of_neg (by simp [hk]), if_neg hk]
        simp
    · rw [insertDesc, if_neg h]
      by_cases hyk : y.freq = k
      · rw [List.filter_cons_of_pos (by simp [hyk]),
          List.filter_cons_of_pos (by simp [hyk]), ih hys]
        rfl
      · rw [List.filter_cons_of_neg (by simp [hyk]),
          List.filter_cons_of_neg (by simp [hyk]), ih hys]

theorem stableSort_aux (l acc : List WNode)
    (hacc : List.Pairwise (fun a b : WNode => b.freq ≤ a.freq) acc) :
    List.Pairwise (fun a b : WNode => b.freq ≤ a.freq)
      (l.foldl (fun acc x => insertDesc x acc) acc) ∧
    ∀ k, (l.foldl (fun acc x => insertDesc x acc) acc).filter (fun n => n.freq == k)
      = acc.filter (fun n => n.freq == k) ++ l.filter (fun n => n.freq == k) := by
  induction l generalizing acc with
  | nil => simpa using hacc
  | cons x l ih =>
    rcases ih (insertDesc x acc) (insertDesc_sorted x acc hacc) with ⟨h1, h2⟩
    refine ⟨h1, ?_⟩
    intro k
    simp only [List.foldl_cons]
    rw [h2 k, insertDesc_filter x acc k hacc]
    by_cases hk : x.freq = k
    · rw [if_pos hk, List.filter_cons_of_pos (by simp [hk])]
      simp
    · rw [if_neg hk, List.filter_cons_of_neg (by simp [hk])]
      simp

/-- The insertion sort used to model `std::list::sort` satisfies the stable
descending-sort specification. -/
theorem stableSortDesc_spec : IsStableSortDesc stableSortDesc := by
  intro l
  rcases stableSort_aux l [] (by simp) with ⟨h1, h2⟩
  exact ⟨h1, fun k => by simpa using h2 k⟩

/-- A stable sort by frequency descending is a unique function: any two
lists that are sorted descending and agree on the subsequence of nodes of
every frequency are equal. -/
theorem stable_sort_unique : ∀ l₁ l₂ : List WNode,
    List.Pairwise (fun a b : WNode => b.freq ≤ a.freq) l₁ →
    List.Pairwise (fun a b : WNode => b.freq ≤ a.freq) l₂ →
    (∀ k, l₁.filter (fun n => n.freq == k) = l₂.filter (fun n => n.freq == k)) →
    l₁ = l₂ := by
  intro l₁
  induction l₁ with
  | nil =>
    intro l₂ h₁ h₂ hfil
    cases l₂ with
    | nil => rfl
    | cons b t₂ =>
      have h := hfil b.freq
      rw [List.filter_cons_of_pos (by simp)] at h
      simp at h
  | cons a t₁ ih =>
    intro l₂ h₁ h₂ hfil
    cases l₂ with
    | nil =>
      have h := hfil a.freq
      rw [List.filter_cons_of_pos (by simp)] at h
      simp at h
    | cons b t₂ =>
      rcases List.pairwise_cons.mp h₁ with ⟨ha, ht₁⟩
      rcases List.pairwise_cons.mp h₂ with ⟨hb, ht₂⟩
      have hba : a.freq ≤ b.freq := by
        have h := hfil a.freq
        have hmem : a ∈ (b :: t₂).filter (fun n => n.freq == a.freq) := by
          rw [← h]
          exact List.mem_filter.mpr ⟨List.mem_cons_self a t₁, by simp⟩
        rcases List.mem_cons.mp (List.mem_filter.mp hmem).1 with heq | hmm
        · rw [heq]
        · exact hb a hmm
      have hab : b.freq ≤ a.freq := by
        have h := hfil b.freq
        have hmem : b ∈ (a :: t₁).filter (fun n => n.freq == b.freq) := by
          rw [h]
          exact List.mem_filter.mpr ⟨List.mem_cons_self b t₂, by simp⟩
        rcases List.mem_cons.mp (List.mem_filter.mp hmem).1 with heq | hmm
        · rw [heq]
        · exact ha b hmm
      have hfr : a.freq = b.freq := by omega
      have hhead := hfil a.freq
      rw [List.filter_cons_of_pos (by simp),
        List.filter_cons_of_pos (by simp [hfr.symm])] at hhead
      injection hhead with hh1 hh2
      have htl : t₁ = t₂ := by
        refine ih t₂ ht₁ ht₂ ?_
        intro k
        by_cases hk : k = a.freq
        · rw [hk]
          exact hh2
        · have h := hfil k
          rw [List.filter_cons_of_neg (by simp; omega),
            List.filter_cons_of_neg (by simp; omega)] at h
          exact h
      rw [hh1, htl]

/-- C10: encode is deterministic — its one implementation-defined ingredient,
the `std::list::sort` call, is pinned down by the C++ standard (a stable sort
by the comparator), and any sorting function satisfying that specification
yields bit-for-bit the same encode output; the frequency table and the
merge-loop re-insertion point are already deterministic functions of the
input modelled directly.  Hence any two evaluations of encode on the same
input sequence agree. -/
theorem encode_deterministic (f : List WNode → List WNode)
    (hstable : IsStableSortDesc f) (w : Nat) (data : List Nat) :
    encodeWith f w data = encode w data := by
  have hfeq : ∀ l, f l = stableSortDesc l := by
    intro l
    rcases hstable l with ⟨hs1, hs2⟩
    rcases stableSortDesc_spec l with ⟨ht1, ht2⟩
    exact stable_sort_unique (f l) (stableSortDesc l) hs1 ht1
      (fun k => (hs2 k).trans (ht2 k).symm)
  simp only [encode, encodeWith, buildHuffmanWith, hfeq]

/-- Witness for C10, instantiating the conforming sort implementation. -/
theorem encode_deterministic_witness :
    encodeWith stableSortDesc 1 [0, 1] = encode 1 [0, 1] :=
  encode_deterministic stableSortDesc stableSortDesc_spec 1 [0, 1]


theorem lutPush_not_mem (lut : Nat → List Bool) (vals : List Nat) (b : Bool)
    (s : Nat) (hs : s ∉ vals) : lutPush lut vals b s = lut s := by
  induction vals generalizing lut with
  | nil => rfl
  | cons v vs ih =>
    have hsv : s ≠ v := fun h => hs (h ▸ List.mem_cons_self v vs)
    have hsvs : s ∉ vs := fun h => hs (List.mem_cons_of_mem v h)
    rw [lutPush, List.foldl_cons, ← lutPush, ih _ hsvs]
    simp [hsv]

theorem lutPush_mem (lut : Nat → List Bool) (vals : List Nat) (b : Bool)
    (s : Nat) (hnd : vals.Nodup) (hs : s ∈ vals) :
    lutPush lut vals b s = lut s ++ [b] := by
  induction vals generalizing lut with
  | nil => simp at hs
  | cons v vs ih =>
    rcases List.nodup_cons.mp hnd with ⟨hv, hvs⟩
    rw [lutPush, List.foldl_cons, ← lutPush]
    rcases List.mem_cons.mp hs with rfl | hsvs
    · rw [lutPush_not_mem _ _ _ _ hv]
      simp
    · have hsv : s ≠ v := fun h => hv (h ▸ hsvs)
      rw [ih _ hvs hsvs]
      simp [hsv]

theorem leafValues_node (l r : HTree) :
    leafValues (HTree.node l r) = leafValues l ++ leafValues r := rfl

theorem pathTo_left (l r : HTree) (s : Nat) (hs : s ∈ leafValues l) :
    pathTo (HTree.node l r) s = false :: pathTo l s := by
  rw [pathTo, if_pos hs]

theorem pathTo_right (l r : HTree) (s : Nat) (hs : s ∉ leafValues l) :
    pathTo (HTree.node l r) s = true :: pathTo r s := by
  rw [pathTo, if_neg hs]

/-- Root-to-leaf paths of distinct symbols in a duplicate-free tree are never
prefixes of one another. -/
theorem pathTo_not_prefix : ∀ (t : HTree), (leafValues t).Nodup →
    ∀ s u : Nat, s ∈ leafValues t → u ∈ leafValues t → s ≠ u →
      ¬ (pathTo t s <+: pathTo t u)
  | HTree.leaf v, _, s, u, hs, hu, hsu => by
    simp only [leafValues, List.mem_singleton] at hs hu
    exact absurd (hs.trans hu.symm) hsu
  | HTree.node l r, hnd, s, u, hs, hu, hsu => by
    rw [leafValues_node] at hs hu
    rcases List.nodup_append.mp (by rwa [leafValues_node] at hnd) with ⟨hndl, hndr, hdisj⟩
    rcases List.mem_append.mp hs with hsl | hsr
    · rcases List.mem_append.mp hu with hul | hur
      · rw [pathTo_left l r s hsl, pathTo_left l r u hul]
        intro hpre
        exact pathTo_not_prefix l hndl s u hsl hul hsu
          (List.cons_prefix_cons.mp hpre).2
      · rw [pathTo_left l r s hsl, pathTo_right l r u (fun h => hdisj h hur)]
        intro hpre
        exact Bool.noConfusion (List.cons_prefix_cons.mp hpre).1
    · rcases List.mem_append.mp hu with hul | hur
      · rw [pathTo_right l r s (fun h => hdisj h hsr), pathTo_left l r u hul]
        intro hpre
        exact Bool.noConfusion (List.cons_prefix_cons.mp hpre).1
      · rw [pathTo_right l r s (fun h => hdisj h hsr),
          pathTo_right l r u (fun h => hdisj h hur)]
        intro hpre
        exact pathTo_not_prefix r hndr s u hsr hur hsu
          (List.cons_prefix_cons.mp hpre).2


theorem exists_two_last (ns : List WNode) (h : 2 ≤ ns.length) :
    ∃ rest r l, ns = rest ++ [r, l] := by
  rcases hns : ns.reverse with _ | ⟨lx, rest1⟩
  · have hl : ns.length = 0 := by rw [← List.length_reverse, hns]; rfl
    omega
  rcases rest1 with _ | ⟨rx, rest2⟩
  · have hl : ns.length = 1 := by rw [← List.length_reverse, hns]; rfl
    omega
  refine ⟨rest2.reverse, rx, lx, ?_⟩
  have h2 := congrArg List.reverse hns
  rw [List.reverse_reverse] at h2
  rw [h2]
  simp

theorem mergeStep_eq (lut : Nat → List Bool) (rest : List WNode) (r l : WNode) :
    mergeStep (rest ++ [r, l]) lut
      = (insertParent ⟨HTree.node l.tree r.tree, l.freq + r.freq⟩ rest,
         lutPush (lutPush lut (leafValues l.tree) false) (leafValues r.tree) true) := by
  have hsplit : rest ++ [r, l] = (rest ++ [r]) ++ [l] := by simp
  have h1 : (rest ++ [r, l]).getLastD default = l := by
    rw [hsplit, List.getLastD_concat]
  have h2 : (rest ++ [r, l]).dropLast = rest ++ [r] := by
    rw [hsplit, List.dropLast_concat]
  have h3 : (rest ++ [r]).getLastD default = r := by
    rw [List.getLastD_concat]
  have h4 : (rest ++ [r]).dropLast = rest := by
    rw [List.dropLast_concat]
  simp only [mergeStep, h1, h2, h3, h4]

theorem disj_symm (a b : WNode) (h : Disj a b) : Disj b a :=
  fun s hsb hsa => h s hsa hsb

theorem step_preserves (lut : Nat → List Bool) (rest : List WNode) (r l : WNode)
    (hinv : EncInv (rest ++ [r, l]) lut) :
    EncInv (insertParent ⟨HTree.node l.tree r.tree, l.freq + r.freq⟩ rest)
      (lutPush (lutPush lut (leafValues l.tree) false) (leafValues r.tree) true) ∧
    ∀ s : Nat,
      (∃ n ∈ insertParent ⟨HTree.node l.tree r.tree, l.freq + r.freq⟩ rest,
          s ∈ leafValues n.tree)
        ↔ (∃ n ∈ rest ++ [r, l], s ∈ leafValues n.tree) := by
  rcases hinv with ⟨hok, hpw⟩
  have hokl : NodeOk lut l := hok l (by simp)
  have hokr : NodeOk lut r := hok r (by simp)
  rcases List.pairwise_append.mp hpw with ⟨hpwrest, hpw2, hcross⟩
  have hdisj_rl : Disj r l := (List.pairwise_cons.mp hpw2).1 l (by simp)
  have hlut2_l : ∀ s ∈ leafValues l.tree,
      lutPush (lutPush lut (leafValues l.tree) false) (leafValues r.tree) true s
        = lut s ++ [false] := by
    intro s hs
    rw [lutPush_not_mem _ _ _ _ (fun hr => hdisj_rl s hr hs),
      lutPush_mem _ _ _ _ hokl.1 hs]
  have hlut2_r : ∀ s ∈ leafValues r.tree,
      lutPush (lutPush lut (leafValues l.tree) false) (leafValues r.tree) true s
        = lut s ++ [true] := by
    intro s hs
    rw [lutPush_mem _ _ _ _ hokr.1 hs, lutPush_not_mem _ _ _ _ (hdisj_rl s hs)]
  have hlut2_other : ∀ s : Nat, s ∉ leafValues l.tree → s ∉ leafValues r.tree →
      lutPush (lutPush lut (leafValues l.tree) false) (leafValues r.tree) true s
        = lut s := by
    intro s hsl hsr
    rw [lutPush_not_mem _ _ _ _ hsr, lutPush_not_mem _ _ _ _ hsl]
  have hokP : NodeOk
      (lutPush (lutPush lut (leafValues l.tree) false) (leafValues r.tree) true)
      ⟨HTree.node l.tree r.tree, l.freq + r.freq⟩ := by
    constructor
    · show (leafValues (HTree.node l.tree r.tree)).Nodup
      rw [leafValues_node]
      exact List.nodup_append.mpr
        ⟨hokl.1, hokr.1, fun a ha => fun hr => hdisj_rl a hr ha⟩
    · intro s hs
      rcases List.mem_append.mp (by rwa [leafValues_node] at hs) with hsl | hsr
      · rw [hlut2_l s hsl, pathTo_left _ _ _ hsl, List.reverse_cons, hokl.2 s hsl]
      · rw [hlut2_r s hsr, pathTo_right _ _ _ (hdisj_rl s hsr), List.reverse_cons,
          hokr.2 s hsr]
  constructor
  · constructor
    · intro n hn
      rcases (mem_insertParent _ n rest).mp hn with rfl | hnrest
      · exact hokP
      · have hdl : Disj n l := hcross n hnrest l (by simp)
        have hdr : Disj n r := hcross n hnrest r (by simp)
        rcases hok n (by simp [hnrest]) with ⟨hnd, hpath⟩
        refine ⟨hnd, ?_⟩
        intro s hs
        rw [hlut2_other s (hdl s hs) (hdr s hs)]
        exact hpath s hs
    · rw [(insertParent_perm _ rest).pairwise_iff (fun hd => disj_symm _ _ hd)]
      refine List.pairwise_cons.mpr ⟨?_, hpwrest⟩
      intro n hn s hsP
      rcases List.mem_append.mp (by rwa [leafValues_node] at hsP) with hsl | hsr
      · exact fun hsn => hcross n hn l (by simp) s hsn hsl
      · exact fun hsn => hcross n hn r (by simp) s hsn hsr
  · intro s
    constructor
    · rintro ⟨n, hn, hs⟩
      rcases (mem_insertParent _ n rest).mp hn with rfl | hnrest
      · rcases List.mem_append.mp (by rwa [leafValues_node] at hs) with hsl | hsr
        · exact ⟨l, by simp, hsl⟩
        · exact ⟨r, by simp, hsr⟩
      · exact ⟨n, by simp [hnrest], hs⟩
    · rintro ⟨n, hn, hs⟩
      rcases List.mem_append.mp hn with hnrest | hnrl
      · exact ⟨n, (mem_insertParent _ n rest).mpr (Or.inr hnrest), hs⟩
      · have hP : s ∈ leafValues (HTree.node l.tree r.tree) := by
          rw [leafValues_node]
          rcases List.mem_cons.mp hnrl with rfl | hnl
          · exact List.mem_append.mpr (Or.inr hs)
          · rcases List.mem_cons.mp hnl with rfl | habs
            · exact List.mem_append.mpr (Or.inl hs)
            · simp at habs
        exact ⟨⟨HTree.node l.tree r.tree, l.freq + r.freq⟩,
          (mem_insertParent _ _ rest).mpr (Or.inl rfl), hP⟩


theorem mergeLoopF_inv : ∀ (fuel : Nat) (ns : List WNode) (lut : Nat → List Bool),
    EncInv ns lut →
    EncInv (mergeLoopF fuel ns lut).1 (mergeLoopF fuel ns lut).2 ∧
    ∀ s : Nat, (∃ n ∈ (mergeLoopF fuel ns lut).1, s ∈ leafValues n.tree)
      ↔ (∃ n ∈ ns, s ∈ leafValues n.tree) := by
  intro fuel
  induction fuel with
  | zero => exact fun ns lut hinv => ⟨hinv, fun s => Iff.rfl⟩
  | succ fuel ih =>
    intro ns lut hinv
    simp only [mergeLoopF]
    by_cases hlen : ns.length ≤ 1
    · rw [if_pos hlen]
      exact ⟨hinv, fun s => Iff.rfl⟩
    · rw [if_neg hlen]
      obtain ⟨rest, r, l, rfl⟩ := exists_two_last ns (by omega)
      rw [mergeStep_eq]
      rcases step_preserves lut rest r l hinv with ⟨hinv2, hcov⟩
      rcases ih _ _ hinv2 with ⟨hinv3, hcov2⟩
      exact ⟨hinv3, fun s => (hcov2 s).trans (hcov s)⟩

theorem mergeLoopF_length : ∀ (fuel : Nat) (ns : List WNode) (lut : Nat → List Bool),
    1 ≤ ns.length → ns.length ≤ fuel + 1 →
    (mergeLoopF fuel ns lut).1.length = 1 := by
  intro fuel
  induction fuel with
  | zero =>
    intro ns lut h1 h2
    show ns.length = 1
    omega
  | succ fuel ih =>
    intro ns lut h1 h2
    simp only [mergeLoopF]
    by_cases hlen : ns.length ≤ 1
    · rw [if_pos hlen]
      show ns.length = 1
      omega
    · rw [if_neg hlen]
      obtain ⟨rest, r, l, rfl⟩ := exists_two_last ns (by omega)
      rw [mergeStep_eq]
      have hl2 : (rest ++ [r, l]).length = rest.length + 2 := by simp
      apply ih
      · rw [insertParent_length]
        omega
      · rw [insertParent_length]
        omega

theorem mem_mapIncr (m : List (Nat × Nat)) (s : Nat) (x : Nat × Nat)
    (hx : x ∈ mapIncr m s) : x.1 = s ∨ x ∈ m := by
  induction m with
  | nil =>
    simp only [mapIncr, List.mem_singleton] at hx
    exact Or.inl (by rw [hx])
  | cons kv rest ih =>
    obtain ⟨k, v⟩ := kv
    by_cases h1 : s < k
    · rw [mapIncr, if_pos h1] at hx
      rcases List.mem_cons.mp hx with rfl | hx2
      · exact Or.inl rfl
      · exact Or.inr hx2
    · by_cases h2 : s = k
      · rw [mapIncr, if_neg h1, if_pos h2] at hx
        rcases List.mem_cons.mp hx with rfl | hx2
        · exact Or.inl (by simp [h2])
        · exact Or.inr (List.mem_cons_of_mem _ hx2)
      · rw [mapIncr, if_neg h1, if_neg h2] at hx
        rcases List.mem_cons.mp hx with rfl | hx2
        · exact Or.inr (List.mem_cons_self _ _)
        · rcases ih hx2 with h | h
          · exact Or.inl h
          · exact Or.inr (List.mem_cons_of_mem _ h)

theorem keys_mapIncr (m : List (Nat × Nat)) (s x : Nat)
    (hx : x = s ∨ x ∈ m.map Prod.fst) : x ∈ (mapIncr m s).map Prod.fst := by
  induction m with
  | nil =>
    rcases hx with rfl | h
    · simp [mapIncr]
    · simp at h
  | cons kv rest ih =>
    obtain ⟨k, v⟩ := kv
    by_cases h1 : s < k
    · rw [mapIncr, if_pos h1]
      rcases hx with rfl | h
      · simp
      · simp only [List.map_cons, List.mem_cons] at h ⊢
        tauto
    · by_cases h2 : s = k
      · rw [mapIncr, if_neg h1, if_pos h2]
        rcases hx with rfl | h
        · simp [h2]
        · simpa using h
      · rw [mapIncr, if_neg h1, if_neg h2]
        rcases hx with rfl | h
        · exact List.mem_cons_of_mem _ (ih (Or.inl rfl))
        · simp only [List.map_cons, List.mem_cons] at h
          rcases h with rfl | h3
          · exact List.mem_cons_self _ _
          · exact List.mem_cons_of_mem _ (ih (Or.inr h3))

theorem mapIncr_sorted (m : List (Nat × Nat)) (s : Nat)
    (hm : List.Pairwise (fun a b : Nat × Nat => a.1 < b.1) m) :
    List.Pairwise (fun a b : Nat × Nat => a.1 < b.1) (mapIncr m s) := by
  induction m with
  | nil => simp [mapIncr]
  | cons kv rest ih =>
    obtain ⟨k, v⟩ := kv
    rcases List.pairwise_cons.mp hm with ⟨hk, hrest⟩
    by_cases h1 : s < k
    · rw [mapIncr, if_pos h1]
      refine List.pairwise_cons.mpr ⟨?_, hm⟩
      intro x hx
      rcases List.mem_cons.mp hx with rfl | hx2
      · exact h1
      · exact lt_trans h1 (hk x hx2)
    · by_cases h2 : s = k
      · rw [mapIncr, if_neg h1, if_pos h2]
        exact List.pairwise_cons.mpr ⟨fun x hx => hk x hx, hrest⟩
      · rw [mapIncr, if_neg h1, if_neg h2]
        refine List.pairwise_cons.mpr ⟨?_, ih hrest⟩
        intro x hx
        rcases mem_mapIncr rest s x hx with hxs | hxm
        · rw [hxs]
          omega
        · exact hk x hxm

theorem buildFreq_aux : ∀ (data : List Nat) (acc : List (Nat × Nat)),
    List.Pairwise (fun a b : Nat × Nat => a.1 < b.1) acc →
    List.Pairwise (fun a b : Nat × Nat => a.1 < b.1) (data.foldl mapIncr acc) ∧
    ∀ x : Nat, (x ∈ acc.map Prod.fst ∨ x ∈ data) →
      x ∈ (data.foldl mapIncr acc).map Prod.fst := by
  intro data
  induction data with
  | nil =>
    intro acc hacc
    refine ⟨hacc, ?_⟩
    intro x hx
    rcases hx with h | h
    · exact h
    · simp at h
  | cons s data ih =>
    intro acc hacc
    rcases ih (mapIncr acc s) (mapIncr_sorted acc s hacc) with ⟨h1, h2⟩
    refine ⟨h1, ?_⟩
    intro x hx
    rcases hx with h | h
    · exact h2 x (Or.inl (keys_mapIncr acc s x (Or.inr h)))
    · rcases List.mem_cons.mp h with rfl | h3
      · exact h2 x (Or.inl (keys_mapIncr acc x x (Or.inl rfl)))
      · exact h2 x (Or.inr h3)

theorem insertDesc_perm (x : WNode) (l : List WNode) :
    List.Perm (insertDesc x l) (x :: l) := by
  induction l with
  | nil => simp [insertDesc]
  | cons y ys ih =>
    by_cases h : x.freq > y.freq
    · simp [insertDesc, h]
    · simp only [insertDesc, if_neg h]
      exact (List.Perm.cons y ih).trans (List.Perm.swap x y ys)

theorem stableSortDesc_perm (l : List WNode) : List.Perm (stableSortDesc l) l := by
  have aux : ∀ (l acc : List WNode),
      List.Perm (l.foldl (fun acc x => insertDesc x acc) acc) (acc ++ l) := by
    intro l
    induction l with
    | nil => simp
    | cons x l ih =>
      intro acc
      simp only [List.foldl_cons]
      refine (ih (insertDesc x acc)).trans ?_
      exact ((insertDesc_perm x acc).append_right l).trans List.perm_middle.symm
  unfold stableSortDesc
  simpa using aux l []


/-- C6: for every non-empty input the merge loop ends with exactly one root
node, and the code table is prefix-free — the root-to-leaf codes (the
reversed accumulated sequences, exactly as emitted into the payload) of any
two distinct input symbols are never prefixes of one another.  Fullness of
the tree is structural: `HTree.node`, the only internal-node form, always
carries exactly two children (as does the C++ `Node(Node*, Node*)`
constructor). -/
theorem huffman_prefix_free (data : List Nat) (hne : data ≠ []) :
    (buildHuffman data).1.length = 1 ∧
    ∀ s t : Nat, s ∈ data → t ∈ data → s ≠ t →
      ¬ (((buildHuffman data).2 s).reverse <+: ((buildHuffman data).2 t).reverse) := by
  have hbh : buildHuffman data
      = mergeLoopF (stableSortDesc ((buildFreq data).map
            (fun p => WNode.mk (HTree.leaf p.1) p.2))).length
          (stableSortDesc ((buildFreq data).map
            (fun p => WNode.mk (HTree.leaf p.1) p.2)))
          (fun _ => []) := rfl
  set bf := buildFreq data with hbf
  set leaves := bf.map (fun p => WNode.mk (HTree.leaf p.1) p.2) with hleaves
  set sorted := stableSortDesc leaves with hsorted
  rcases buildFreq_aux data [] (by simp) with ⟨hbfsort, hbfcov⟩
  have hcov0 : ∀ s ∈ data, ∃ n ∈ sorted, s ∈ leafValues n.tree := by
    intro s hs
    rcases List.mem_map.mp (hbfcov s (Or.inr hs)) with ⟨p, hp, hp1⟩
    refine ⟨WNode.mk (HTree.leaf p.1) p.2, ?_, ?_⟩
    · exact (stableSortDesc_perm leaves).mem_iff.mpr (List.mem_map.mpr ⟨p, hp, rfl⟩)
    · simp [leafValues, hp1]
  have hinv0 : EncInv sorted (fun _ => []) := by
    constructor
    · intro n hn
      rcases List.mem_map.mp ((stableSortDesc_perm leaves).mem_iff.mp hn) with ⟨p, hp, rfl⟩
      refine ⟨by simp [leafValues], ?_⟩
      intro s hs
      simp only [leafValues, List.mem_singleton] at hs
      simp [pathTo]
    · refine ((stableSortDesc_perm leaves).pairwise_iff
        (fun hd => disj_symm _ _ hd)).mpr ?_
      rw [hleaves, List.pairwise_map]
      refine hbfsort.imp ?_
      intro p q hpq s hsp hsq
      simp only [leafValues, List.mem_singleton] at hsp hsq
      omega
  have hbfne : bf ≠ [] := by
    intro hbfnil
    rcases List.exists_mem_of_ne_nil data hne with ⟨x, hx⟩
    have hx2 : x ∈ bf.map Prod.fst := hbfcov x (Or.inr hx)
    rw [hbfnil] at hx2
    simp at hx2
  have hlen1 : 1 ≤ sorted.length := by
    have he1 : sorted.length = leaves.length := (stableSortDesc_perm leaves).length_eq
    have he2 : leaves.length = bf.length := by rw [hleaves, List.length_map]
    have he3 : 0 < bf.length := List.length_pos.mpr hbfne
    omega
  rcases mergeLoopF_inv sorted.length sorted (fun _ => []) hinv0 with ⟨⟨hokF, _⟩, hcovF⟩
  have hlenF : (mergeLoopF sorted.length sorted (fun _ => [])).1.length = 1 :=
    mergeLoopF_length sorted.length sorted _ hlen1 (by omega)
  rcases List.length_eq_one.mp hlenF with ⟨root, hroot⟩
  constructor
  · rw [hbh]
    exact hlenF
  · intro s t hsd htd hst
    rcases (hcovF s).mpr (hcov0 s hsd) with ⟨n1, hn1, hsn⟩
    rcases (hcovF t).mpr (hcov0 t htd) with ⟨n2, hn2, htn⟩
    rw [hroot, List.mem_singleton] at hn1 hn2
    rw [hn1] at hsn
    rw [hn2] at htn
    have hok := hokF root (by rw [hroot]; exact List.mem_singleton.mpr rfl)
    have hluts := hok.2 s hsn
    have hlutt := hok.2 t htn
    rw [hbh]
    rw [hluts, hlutt, List.reverse_reverse, List.reverse_reverse]
    exact pathTo_not_prefix root.tree hok.1 s t hsn htn hst

/-- Witness for C6 on the two-symbol input `[0, 1]`. -/
theorem huffman_prefix_free_witness :
    (buildHuffman [0, 1]).1.length = 1 ∧
    ¬ (((buildHuffman [0, 1]).2 0).reverse <+: ((buildHuffman [0, 1]).2 1).reverse) :=
  ⟨(huffman_prefix_free [0, 1] (by decide)).1,
   (huffman_prefix_free [0, 1] (by decide)).2 0 1 (by decide) (by decide) (by decide)⟩

end hf
